import Mathlib

/-!
Verification of the Snowflake query-optimisation agent
(`Agent.py`, `Nolangagent.py`, `toolkit.py`, `Nolangmain.py`).

Python strings are modelled as `List Char`.  The Python string methods used
by the agent (`strip`, `split`, `join`, `startswith`, `in`, `replace`) are
embedded below; the completion endpoint and the warehouse client are
external collaborators and appear as function parameters.
-/

namespace Snowwise

/-- Python whitespace characters recognised by `str.strip()` (ASCII range). -/
def isPySpace (c : Char) : Bool :=
  c == ' ' || c == '\t' || c == '\n' || c == '\r' || c == '\x0b' || c == '\x0c'

/-- Python `s.strip()`: drop leading and trailing whitespace. -/
def pyStrip (s : List Char) : List Char :=
  ((s.dropWhile isPySpace).reverse.dropWhile isPySpace).reverse

/-- Index of the first occurrence of `pat` as a contiguous substring of `s`
(Python `s.find(pat)`, used to drive `s.split(pat)`). -/
def findSub : List Char → List Char → Option Nat
  | [], pat => if pat.isPrefixOf ([] : List Char) then some 0 else none
  | c :: s, pat =>
    if pat.isPrefixOf (c :: s) then some 0 else (findSub s pat).map (· + 1)

/-- Python `pat in s`: substring containment. -/
def containsSub (s pat : List Char) : Bool := (findSub s pat).isSome

/-- Fuel-indexed worker for `pySplit`; the fuel only bounds the recursion
depth and `s.length + 1` is always enough for a nonempty separator. -/
def pySplitAux : Nat → List Char → List Char → List (List Char)
  | 0, s, _ => [s]
  | fuel + 1, s, pat =>
    match findSub s pat with
    | none => [s]
    | some i => s.take i :: pySplitAux fuel (s.drop (i + pat.length)) pat

/-- Python `s.split(pat)` for a nonempty separator `pat`: cut `s` at the
left-to-right non-overlapping occurrences of `pat`. -/
def pySplit (s pat : List Char) : List (List Char) :=
  pySplitAux (s.length + 1) s pat

/-- Python `sep.join(pieces)`. -/
def joinWith (sep : List Char) : List (List Char) → List Char
  | [] => []
  | [x] => x
  | x :: y :: xs => x ++ sep ++ joinWith sep (y :: xs)

/-- Python `s.replace(old, new)` for a single-character `old`. -/
def pyReplaceChar (s : List Char) (old : Char) (new : List Char) : List Char :=
  match s with
  | [] => []
  | a :: rest => (if a == old then new else [a]) ++ pyReplaceChar rest old new

/-- The final-answer marker of the tool invocation text protocol. -/
def finalMarker : List Char := ("Final Answer:".data)

/-- Guard of the final branch in `Agent.run` (Nolangagent.py line 136):
Python `response.strip().startswith("Final Answer:")`. -/
def isFinalResponse (response : List Char) : Bool :=
  finalMarker.isPrefixOf (pyStrip response)

/-- Extraction of the final answer, common to both implementations
(Nolangagent.py line 137, Agent.py line 46):
Python `response.split("Final Answer:")[-1].strip()`. -/
def finalAnswer (response : List Char) : List Char :=
  pyStrip ((pySplit response finalMarker).getLastD [])

/-- Result of classifying one raw model completion: either a final answer
or a tool invocation (the spec's `ParsedStep`). -/
inductive ParsedStep where
  | Final (answer : List Char)
  | ToolCall (name arg : List Char)
deriving DecidableEq

/-- Tool-name half of the tool branch (both implementations):
Python `response.split(":")[0].strip()`. -/
def toolNameOf (response : List Char) : List Char :=
  pyStrip ((pySplit response [':']).headD [])

/-- Tool-argument half of the tool branch (both implementations):
Python `":".join(response.split(":")[1:]).strip()`. -/
def toolInputOf (response : List Char) : List Char :=
  pyStrip (joinWith [':'] ((pySplit response [':']).tail))

/-- CortexAgent.parse_response (Agent.py lines 44-50): final when the
marker occurs anywhere in the response, otherwise a tool call. -/
def parse_response (response : List Char) : ParsedStep :=
  if containsSub response finalMarker then ParsedStep.Final (finalAnswer response)
  else ParsedStep.ToolCall (toolNameOf response) (toolInputOf response)

/-- Response classification inlined in Agent.run (Nolangagent.py lines
136-140): final only when the stripped response starts with the marker,
otherwise a tool call. -/
def runParse (response : List Char) : ParsedStep :=
  if isFinalResponse response then ParsedStep.Final (finalAnswer response)
  else ParsedStep.ToolCall (toolNameOf response) (toolInputOf response)

/-- Chat message, Python dict `{role: ..., content: ...}` (spec `Message`). -/
structure Message where
  role : List Char
  content : List Char
deriving DecidableEq

/-- The Tool class of Nolangagent.py (lines 5-12): a named capability; its
`func` is the wrapped executor, abstracted here as a text-to-text function
(`Tool.run` just forwards its argument to `func`). -/
structure Tool where
  name : List Char
  func : List Char → List Char
  description : List Char

/-- Content of the message appended when the parsed tool name is not in the
registry: Python f-string `"Error: Tool <tool_name> not found."`. -/
def errNotFound (tool_name : List Char) : List Char :=
  ("Error: Tool ".data) ++ tool_name ++ (" not found.".data)

/-- Content of the message appended after a successful tool dispatch:
Python f-string `"Tool <tool_name> returned: <tool_response>"`. -/
def toolReturn (tool_name tool_response : List Char) : List Char :=
  ("Tool ".data) ++ tool_name ++ (" returned: ".data) ++ tool_response

/-- Initial transcript of Agent.run (Nolangagent.py lines 122-131):
the fixed system instructions followed by the user input. -/
def runInit (system_message input_string : List Char) : List Message :=
  [⟨("system".data), system_message⟩, ⟨("user".data), input_string⟩]

/-- One iteration of the `while True` loop of Agent.run (Nolangagent.py
lines 133-147).  The completion endpoint is the injected
`cortex_function`, modelled as a function from the transcript to the
completion text (the source serialises the transcript with `json.dumps`
before the call).  `Sum.inl` is the updated transcript handed to the next
iteration (state AWAITING_MODEL), `Sum.inr` is the returned final answer
(state DONE). -/
def runStep (tools : List Tool) (complete : List Message → List Char)
    (messages : List Message) : List Message ⊕ List Char :=
  match runParse (complete messages) with
  | ParsedStep.Final ans => Sum.inr ans
  | ParsedStep.ToolCall tool_name tool_input =>
    match tools.find? (fun t => t.name == tool_name) with
    | some tool =>
        Sum.inl (messages ++ [⟨("user".data), toolReturn tool_name (tool.func tool_input)⟩])
    | none => Sum.inl (messages ++ [⟨("user".data), errNotFound tool_name⟩])

/-- Iterating the loop body `n` times; a final answer is absorbing. -/
def runLoop (tools : List Tool) (complete : List Message → List Char) :
    Nat → List Message ⊕ List Char → List Message ⊕ List Char
  | 0, st => st
  | n + 1, st =>
    match st with
    | Sum.inl messages => runLoop tools complete n (runStep tools complete messages)
    | Sum.inr ans => Sum.inr ans

/-- The registry built by Agent._get_tools (Nolangagent.py lines 52-69),
with the three executor bodies passed in as parameters. -/
def agentTools (info checker executor : List Char → List Char) : List Tool :=
  [⟨("snowflake_table_info".data), info,
     ("Input: comma-separated list of tables. Output: schema and sample rows for those tables.".data)⟩,
   ⟨("query_checker".data), checker,
     ("Use this to check your query before executing it with query_executor.".data)⟩,
   ⟨("query_executor".data), executor,
     ("Input: correct SQL query. Output: result and query_id. If error, rewrite and try again.".data)⟩]

/-- Outcome of one `cursor.execute(q).fetchall()` call on the warehouse
client (the external collaborator): either it returns data — modelled by
the textual rendering of the fetched rows plus the `sfqid` execution
identifier — or it raises an exception carrying message `e`. -/
inductive ExecBehavior where
  | ok (result : List Char) (qid : List Char)
  | raise (e : List Char)
deriving DecidableEq

/-- Return value of Agent._query_executor: the Python dict
`{"results": ..., "query_id": ...}` or `{"error": ...}`. -/
inductive ExecResult where
  | success (results : List Char) (query_id : List Char)
  | failure (error : List Char)
deriving DecidableEq

/-- Agent._query_executor (Nolangagent.py lines 111-119).  `beh` is the
warehouse client's behaviour on each SQL text; `openCursors` counts the
cursors acquired and not yet closed.  On the success path the cursor is
acquired and then closed (net count unchanged); when `execute`/`fetchall`
raises, control jumps to the `except` branch and the `cursor.close()`
inside the `try` is skipped, so the acquired cursor stays open. -/
def query_executor (beh : List Char → ExecBehavior) (query : List Char)
    (openCursors : Nat) : ExecResult × Nat :=
  match beh query with
  | ExecBehavior.ok results qid => (ExecResult.success results qid, openCursors)
  | ExecBehavior.raise e => (ExecResult.failure e, openCursors + 1)

/-- SQL text issued per table by Agent._snowflake_table_info:
Python f-string `f"DESCRIBE TABLE <t>"`. -/
def descQuery (t : List Char) : List Char := ("DESCRIBE TABLE ".data) ++ t

/-- One output block of Agent._snowflake_table_info:
Python f-string `f"Schema for table <t>: <result>\n"`. -/
def schemaBlock (t result : List Char) : List Char :=
  ("Schema for table ".data) ++ t ++ (": ".data) ++ result ++ ("\n".data)

/-- Loop body of Agent._snowflake_table_info over the already-split table
names, accumulating `output_schema`.  Each iteration acquires a fresh
cursor; on success it is closed, while a raising `execute` propagates the
exception (`Except.error`) with the cursor still open. -/
def tableInfoGo (beh : List Char → ExecBehavior) :
    List (List Char) → List Char → Nat → Except (List Char) (List Char) × Nat
  | [], acc, n => (Except.ok acc, n)
  | t :: ts, acc, n =>
    match beh (descQuery t) with
    | ExecBehavior.ok result _ => tableInfoGo beh ts (acc ++ schemaBlock t result) n
    | ExecBehavior.raise e => (Except.error e, n + 1)

/-- Agent._snowflake_table_info (Nolangagent.py lines 71-80): split the
comma-separated list, describe each table in order, concatenate the
blocks; an exception from any one lookup propagates out of the call. -/
def snowflake_table_info (beh : List Char → ExecBehavior)
    (table_names : List Char) (openCursors : Nat) :
    Except (List Char) (List Char) × Nat :=
  tableInfoGo beh (pySplit table_names [',']) [] openCursors

/-- Text of the critique template before the `query` hole
(Agent._query_checker, Nolangagent.py lines 83-99). -/
def templatePre : List Char := ("\n        ".data)

/-- Text of the critique template after the `query` hole
(Agent._query_checker, Nolangagent.py lines 83-99). -/
def templatePost : List Char :=
  (("\n        Double check the Snowflake SQL query above for common mistakes, including:"
    ++ "\n        - Using NOT IN with NULL values"
    ++ "\n        - Using UNION when UNION ALL should have been used"
    ++ "\n        - Using BETWEEN for exclusive ranges"
    ++ "\n        - Data type mismatch in predicates"
    ++ "\n        - Properly quoting identifiers"
    ++ "\n        - Using the correct number of arguments for functions"
    ++ "\n        - Casting to the correct data type"
    ++ "\n        - Using the proper columns for joins"
    ++ "\n"
    ++ "\n        If there are any of the above mistakes, rewrite the query."
    ++ " If there are no mistakes, just reproduce the original query."
    ++ "\n"
    ++ "\n        Output the final SQL query only."
    ++ "\n"
    ++ "\n        SQL Query: ").data)

/-- The single-quote character (escaped in the checker prompt). -/
def squote : Char := Char.ofNat 39

/-- Quote escaping of Agent._query_checker (Nolangagent.py line 101):
Python `query.replace(chr(34), backslash+chr(34)).replace(chr(39), backslash+chr(39))`. -/
def pyEscape (query : List Char) : List Char :=
  pyReplaceChar (pyReplaceChar query '"' ['\\', '"']) squote ['\\', squote]

/-- Agent._query_checker (Nolangagent.py lines 82-109): build the fixed
critique prompt around the escaped query and send it to the completion
endpoint as a single user message, with no system message and no loop
transcript. -/
def query_checker (cortex_function : List Message → List Char)
    (query : List Char) : List Char :=
  cortex_function [⟨("user".data), templatePre ++ pyEscape query ++ templatePost⟩]

/-- Position of the last occurrence of `pat` as a contiguous substring of
`s` (spec side: the spec extracts the answer after the LAST occurrence of
the marker). -/
def lastOcc : List Char → List Char → Option Nat
  | [], pat => if pat.isPrefixOf ([] : List Char) then some 0 else none
  | c :: s, pat =>
    match lastOcc s pat with
    | some j => some (j + 1)
    | none => if pat.isPrefixOf (c :: s) then some 0 else none

/-- Substring of `s` after the last occurrence of `pat` (spec side);
`s` itself when `pat` does not occur. -/
def afterLast (s pat : List Char) : List Char :=
  match lastOcc s pat with
  | some p => s.drop (p + pat.length)
  | none => s

/-- Check that no nonempty proper suffix-copy of `pat` is also a prefix of
`pat` (no self-overlap); holds for the final-answer marker and makes
left-to-right non-overlapping splitting find every occurrence. -/
def borderFreeB (pat : List Char) : Bool :=
  (List.range pat.length).all (fun d => d == 0 || !((pat.drop d).isPrefixOf pat))

/-- Tool name as the spec words it: the substring before the first `:`
character, trimmed. -/
def specToolName (s : List Char) : List Char :=
  pyStrip (s.takeWhile (fun a => a != ':'))

/-- Tool argument as the spec words it: everything after the first `:`
character, trimmed; empty when there is no colon. -/
def specToolArg (s : List Char) : List Char :=
  pyStrip ((s.dropWhile (fun a => a != ':')).drop 1)

/-- Concatenation of a list of text blocks (spec side, for the schema
tool's output). -/
def concatAll : List (List Char) → List Char
  | [] => []
  | x :: xs => x ++ concatAll xs

/-- Schema-tool output as the spec words it: one block per listed table
name, in input order, each block rendering that table's describe result. -/
def specSchemaConcat (f : List Char → List Char) (table_names : List Char) : List Char :=
  concatAll ((pySplit table_names [',']).map (fun t => schemaBlock t (f (descQuery t))))

theorem findSub_some_isPrefix :
    ∀ (s pat : List Char) (i : Nat), findSub s pat = some i → pat <+: s.drop i := by
  intro s
  induction s with
  | nil =>
    intro pat i h
    by_cases hp : pat.isPrefixOf ([] : List Char)
    · simp only [findSub, hp, if_true, Option.some.injEq] at h
      subst h
      simpa using List.isPrefixOf_iff_prefix.mp hp
    · simp [findSub, hp] at h
  | cons c s ih =>
    intro pat i h
    by_cases hp : pat.isPrefixOf (c :: s)
    · simp only [findSub, hp, if_true, Option.some.injEq] at h
      subst h
      simpa using List.isPrefixOf_iff_prefix.mp hp
    · simp only [findSub, hp, if_false, Bool.false_eq_true] at h
      cases hf : findSub s pat with
      | none => rw [hf] at h; simp at h
      | some j =>
        rw [hf] at h
        simp only [Option.map_some', Option.some.injEq] at h
        subst h
        rw [List.drop_succ_cons]
        exact ih pat j hf

theorem findSub_none_not :
    ∀ (s pat : List Char), findSub s pat = none → ∀ j, ¬ pat <+: s.drop j := by
  intro s
  induction s with
  | nil =>
    intro pat h j hcon
    by_cases hp : pat.isPrefixOf ([] : List Char)
    · simp [findSub, hp] at h
    · rw [List.drop_nil] at hcon
      exact hp (List.isPrefixOf_iff_prefix.mpr hcon)
  | cons c s ih =>
    intro pat h j hcon
    by_cases hp : pat.isPrefixOf (c :: s)
    · simp [findSub, hp] at h
    · simp only [findSub, hp, if_false, Bool.false_eq_true] at h
      cases hf : findSub s pat with
      | some j2 => rw [hf] at h; simp at h
      | none =>
        cases j with
        | zero => exact hp (List.isPrefixOf_iff_prefix.mpr (by simpa using hcon))
        | succ j2 =>
          rw [List.drop_succ_cons] at hcon
          exact ih pat hf j2 hcon

theorem findSub_isSome_of :
    ∀ (s pat : List Char) (i : Nat), pat <+: s.drop i → (findSub s pat).isSome := by
  intro s pat i h
  cases hf : findSub s pat with
  | some j => simp
  | none => exact absurd h (findSub_none_not s pat hf i)

theorem findSub_min :
    ∀ (s pat : List Char) (i : Nat), findSub s pat = some i →
      ∀ j, j < i → ¬ pat <+: s.drop j := by
  intro s
  induction s with
  | nil =>
    intro pat i h j hj hcon
    by_cases hp : pat.isPrefixOf ([] : List Char)
    · simp only [findSub, hp, if_true, Option.some.injEq] at h
      omega
    · simp [findSub, hp] at h
  | cons c s ih =>
    intro pat i h j hj hcon
    by_cases hp : pat.isPrefixOf (c :: s)
    · simp only [findSub, hp, if_true, Option.some.injEq] at h
      omega
    · simp only [findSub, hp, if_false, Bool.false_eq_true] at h
      cases hf : findSub s pat with
      | none => rw [hf] at h; simp at h
      | some j2 =>
        rw [hf] at h
        simp only [Option.map_some', Option.some.injEq] at h
        cases j with
        | zero => exact hp (List.isPrefixOf_iff_prefix.mpr (by simpa using hcon))
        | succ j3 =>
          rw [List.drop_succ_cons] at hcon
          exact ih pat j2 hf j3 (by omega) hcon

theorem findSub_lt_length (s pat : List Char) (i : Nat) (hp : pat ≠ [])
    (h : findSub s pat = some i) : i < s.length := by
  by_contra hcon
  have hle : s.length ≤ i := by omega
  have hdrop : s.drop i = [] := List.drop_eq_nil_iff.mpr hle
  have := findSub_some_isPrefix s pat i h
  rw [hdrop] at this
  exact hp (List.prefix_nil.mp this)

theorem pySplitAux_ne_nil : ∀ (f : Nat) (s pat : List Char), pySplitAux f s pat ≠ [] := by
  intro f s pat
  cases f with
  | zero => simp [pySplitAux]
  | succ f2 =>
    cases hf : findSub s pat with
    | none => simp [pySplitAux, hf]
    | some i => simp [pySplitAux, hf]

theorem pySplit_ne_nil (s pat : List Char) : pySplit s pat ≠ [] :=
  pySplitAux_ne_nil (s.length + 1) s pat

theorem pySplitAux_congr (pat : List Char) (hp : pat ≠ []) :
    ∀ (f1 : Nat), ∀ (f2 : Nat) (s : List Char), s.length < f1 → s.length < f2 →
      pySplitAux f1 s pat = pySplitAux f2 s pat := by
  intro f1
  induction f1 with
  | zero => intro f2 s h1 h2; omega
  | succ f ih =>
    intro f2 s h1 h2
    cases f2 with
    | zero => omega
    | succ g =>
      cases hf : findSub s pat with
      | none => simp [pySplitAux, hf]
      | some i =>
        simp only [pySplitAux, hf]
        have hlen : i < s.length := findSub_lt_length s pat i hp hf
        have hplen : 0 < pat.length := List.length_pos.mpr hp
        have hd : (s.drop (i + pat.length)).length = s.length - (i + pat.length) :=
          List.length_drop _ _
        have hlt1 : (s.drop (i + pat.length)).length < f := by omega
        have hlt2 : (s.drop (i + pat.length)).length < g := by omega
        rw [ih g (s.drop (i + pat.length)) hlt1 hlt2]

theorem pySplit_none (s pat : List Char) (hf : findSub s pat = none) :
    pySplit s pat = [s] := by
  simp [pySplit, pySplitAux, hf]

theorem pySplitAux_succ (f : Nat) (s pat : List Char) :
    pySplitAux (f + 1) s pat =
      match findSub s pat with
      | none => [s]
      | some i => s.take i :: pySplitAux f (s.drop (i + pat.length)) pat := rfl

theorem pySplit_some (s pat : List Char) (i : Nat) (hp : pat ≠ [])
    (hf : findSub s pat = some i) :
    pySplit s pat = s.take i :: pySplit (s.drop (i + pat.length)) pat := by
  have hlen : i < s.length := findSub_lt_length s pat i hp hf
  have hplen : 0 < pat.length := List.length_pos.mpr hp
  have hd : (s.drop (i + pat.length)).length = s.length - (i + pat.length) :=
    List.length_drop _ _
  have h1 : pySplit s pat
      = s.take i :: pySplitAux s.length (s.drop (i + pat.length)) pat := by
    simp only [pySplit, pySplitAux_succ, hf]
  rw [h1]
  rw [pySplitAux_congr pat hp s.length ((s.drop (i + pat.length)).length + 1)
        (s.drop (i + pat.length)) (by omega) (by omega)]
  rfl

theorem lastOcc_some_occ :
    ∀ (s pat : List Char) (p : Nat), lastOcc s pat = some p → pat <+: s.drop p := by
  intro s
  induction s with
  | nil =>
    intro pat p h
    by_cases hp : pat.isPrefixOf ([] : List Char)
    · simp only [lastOcc, hp, if_true, Option.some.injEq] at h
      subst h
      simpa using List.isPrefixOf_iff_prefix.mp hp
    · simp [lastOcc, hp] at h
  | cons c s ih =>
    intro pat p h
    cases hl : lastOcc s pat with
    | some j =>
      simp only [lastOcc, hl, Option.some.injEq] at h
      subst h
      rw [List.drop_succ_cons]
      exact ih pat j hl
    | none =>
      simp only [lastOcc, hl] at h
      by_cases hp : pat.isPrefixOf (c :: s)
      · simp only [hp, if_true, Option.some.injEq] at h
        subst h
        simpa using List.isPrefixOf_iff_prefix.mp hp
      · simp [hp] at h

theorem lastOcc_none_not :
    ∀ (s pat : List Char), lastOcc s pat = none → ∀ j, ¬ pat <+: s.drop j := by
  intro s
  induction s with
  | nil =>
    intro pat h j hcon
    by_cases hp : pat.isPrefixOf ([] : List Char)
    · simp [lastOcc, hp] at h
    · rw [List.drop_nil] at hcon
      exact hp (List.isPrefixOf_iff_prefix.mpr hcon)
  | cons c s ih =>
    intro pat h j hcon
    cases hl : lastOcc s pat with
    | some j2 => simp [lastOcc, hl] at h
    | none =>
      simp only [lastOcc, hl] at h
      by_cases hp : pat.isPrefixOf (c :: s)
      · simp [hp] at h
      · cases j with
        | zero => exact hp (List.isPrefixOf_iff_prefix.mpr (by simpa using hcon))
        | succ j2 =>
          rw [List.drop_succ_cons] at hcon
          exact ih pat hl j2 hcon

theorem lastOcc_max :
    ∀ (s pat : List Char), pat ≠ [] → ∀ (p : Nat), lastOcc s pat = some p →
      ∀ q, p < q → ¬ pat <+: s.drop q := by
  intro s
  induction s with
  | nil =>
    intro pat hne p h q hq hcon
    have hp : ¬ pat.isPrefixOf ([] : List Char) := by
      intro hcon2
      exact hne (List.prefix_nil.mp (List.isPrefixOf_iff_prefix.mp hcon2))
    simp [lastOcc, hp] at h
  | cons c s ih =>
    intro pat hne p h q hq hcon
    cases hl : lastOcc s pat with
    | some j =>
      simp only [lastOcc, hl, Option.some.injEq] at h
      subst h
      cases q with
      | zero => omega
      | succ q2 =>
        rw [List.drop_succ_cons] at hcon
        exact ih pat hne j hl q2 (by omega) hcon
    | none =>
      simp only [lastOcc, hl] at h
      by_cases hp : pat.isPrefixOf (c :: s)
      · simp only [hp, if_true, Option.some.injEq] at h
        subst h
        cases q with
        | zero => omega
        | succ q2 =>
          rw [List.drop_succ_cons] at hcon
          exact lastOcc_none_not s pat hl q2 hcon
      · simp [hp] at h

theorem lastOcc_eq_of (s pat : List Char) (hne : pat ≠ []) (p : Nat)
    (hocc : pat <+: s.drop p) (hmax : ∀ q, p < q → ¬ pat <+: s.drop q) :
    lastOcc s pat = some p := by
  cases hl : lastOcc s pat with
  | none => exact absurd hocc (lastOcc_none_not s pat hl p)
  | some p0 =>
    rcases lt_trichotomy p p0 with hlt | heq | hgt
    · exact absurd (lastOcc_some_occ s pat p0 hl) (hmax p0 hlt)
    · rw [heq]
    · exact absurd hocc (lastOcc_max s pat hne p0 hl p hgt)

theorem borderFree_no_overlap (pat : List Char) (hb : borderFreeB pat = true)
    (u : List Char) (d : Nat) (hd0 : 0 < d) (hdL : d < pat.length)
    (h1 : pat <+: u) (h2 : pat <+: u.drop d) : False := by
  obtain ⟨v, hv⟩ := h1
  subst hv
  have hdrop : (pat ++ v).drop d = pat.drop d ++ v := by
    rw [List.drop_append_eq_append_drop]
    have : d - pat.length = 0 := by omega
    rw [this, List.drop_zero]
  rw [hdrop] at h2
  have hpre1 : pat.drop d <+: pat.drop d ++ v := List.prefix_append _ _
  have hlen : (pat.drop d).length ≤ pat.length := by
    rw [List.length_drop]; omega
  have hcon : pat.drop d <+: pat := List.prefix_of_prefix_length_le hpre1 h2 hlen
  have hmem : d ∈ List.range pat.length := List.mem_range.mpr hdL
  have := (List.all_eq_true.mp hb) d hmem
  simp only [Bool.or_eq_true, beq_iff_eq, Bool.not_eq_true'] at this
  rcases this with h0 | hnp
  · omega
  · exact absurd (List.isPrefixOf_iff_prefix.mpr hcon) (by simp [hnp])

theorem getLastD_irrel {α : Type} (l : List α) (d1 d2 : α) (h : l ≠ []) :
    l.getLastD d1 = l.getLastD d2 := by
  cases l with
  | nil => exact absurd rfl h
  | cons a t => rw [List.getLastD_cons, List.getLastD_cons]

theorem getLastD_pySplit_eq_afterLast (pat : List Char) (hp : pat ≠ [])
    (hb : borderFreeB pat = true) :
    ∀ s, (pySplit s pat).getLastD [] = afterLast s pat := by
  suffices h : ∀ n, ∀ s : List Char, s.length ≤ n →
      (pySplit s pat).getLastD [] = afterLast s pat by
    intro s; exact h s.length s le_rfl
  intro n
  induction n with
  | zero =>
    intro s hs
    have hsnil : s = [] := List.length_eq_zero.mp (Nat.le_zero.mp hs)
    subst hsnil
    have hf : findSub [] pat = none := by
      by_cases hpp : pat.isPrefixOf ([] : List Char)
      · exact absurd (List.prefix_nil.mp (List.isPrefixOf_iff_prefix.mp hpp)) hp
      · simp [findSub, hpp]
    have hl : lastOcc [] pat = none := by
      cases hl2 : lastOcc [] pat with
      | none => rfl
      | some p => exact absurd (lastOcc_some_occ _ _ _ hl2) (findSub_none_not _ _ hf p)
    rw [pySplit_none _ _ hf]
    simp [afterLast, hl]
  | succ n ih =>
    intro s hs
    cases hf : findSub s pat with
    | none =>
      have hl : lastOcc s pat = none := by
        cases hl2 : lastOcc s pat with
        | none => rfl
        | some p => exact absurd (lastOcc_some_occ _ _ _ hl2) (findSub_none_not _ _ hf p)
      rw [pySplit_none _ _ hf]
      simp [afterLast, hl]
    | some i =>
      have hocc : pat <+: s.drop i := findSub_some_isPrefix s pat i hf
      have hil : i < s.length := findSub_lt_length s pat i hp hf
      have hplen : 0 < pat.length := List.length_pos.mpr hp
      have hlen2 : (s.drop (i + pat.length)).length ≤ n := by
        rw [List.length_drop]; omega
      have hne2 : pySplit (s.drop (i + pat.length)) pat ≠ [] := pySplit_ne_nil _ _
      rw [pySplit_some s pat i hp hf, List.getLastD_cons,
        getLastD_irrel _ _ ([] : List Char) hne2, ih _ hlen2]
      have htrans : ∀ j, (s.drop (i + pat.length)).drop j = s.drop (i + pat.length + j) := by
        intro j; rw [List.drop_drop]
      cases hl2 : lastOcc (s.drop (i + pat.length)) pat with
      | none =>
        have hnone := lastOcc_none_not _ pat hl2
        have hmax : ∀ q, i < q → ¬ pat <+: s.drop q := by
          intro q hq hcon
          by_cases hq2 : i + pat.length ≤ q
          · apply hnone (q - (i + pat.length))
            rw [htrans]
            have heq : i + pat.length + (q - (i + pat.length)) = q := by omega
            rw [heq]; exact hcon
          · refine borderFree_no_overlap pat hb (s.drop i) (q - i) (by omega) (by omega)
              hocc ?_
            rw [List.drop_drop]
            have heq : i + (q - i) = q := by omega
            rw [heq]; exact hcon
        have hlast : lastOcc s pat = some i := lastOcc_eq_of s pat hp i hocc hmax
        simp [afterLast, hl2, hlast]
      | some p2 =>
        have hocc2 : pat <+: (s.drop (i + pat.length)).drop p2 := lastOcc_some_occ _ _ _ hl2
        have hmax2 := lastOcc_max _ pat hp p2 hl2
        have hlast : lastOcc s pat = some (i + pat.length + p2) := by
          apply lastOcc_eq_of s pat hp
          · rw [← htrans]; exact hocc2
          · intro q hq hcon
            apply hmax2 (q - (i + pat.length)) (by omega)
            rw [htrans]
            have heq : i + pat.length + (q - (i + pat.length)) = q := by omega
            rw [heq]; exact hcon
        simp only [afterLast, hl2, hlast]
        rw [htrans]
        congr 1
        omega

theorem pyStrip_within (s : List Char) : pyStrip s <:+: s := by
  have h1 : s.dropWhile isPySpace <:+ s := List.dropWhile_suffix _
  have h2 : pyStrip s <+: s.dropWhile isPySpace := by
    rw [← List.reverse_suffix]
    simp only [pyStrip, List.reverse_reverse]
    exact List.dropWhile_suffix _
  exact List.infix_iff_prefix_suffix.mpr ⟨s.dropWhile isPySpace, h2, h1⟩

theorem containsSub_of_marker (s pat : List Char)
    (h : pat.isPrefixOf (pyStrip s) = true) : containsSub s pat = true := by
  have h1 : pat <+: pyStrip s := List.isPrefixOf_iff_prefix.mp h
  have h2 : pat <:+: s := h1.isInfix.trans (pyStrip_within s)
  obtain ⟨u, v, huv⟩ := h2
  have hs : s = u ++ (pat ++ v) := by rw [← huv, List.append_assoc]
  have hd : s.drop u.length = pat ++ v := by rw [hs, List.drop_left]
  have hocc : pat <+: s.drop u.length := by
    rw [hd]; exact List.prefix_append _ _
  have := findSub_isSome_of s pat u.length hocc
  simpa [containsSub] using this

theorem finalMarker_ne_nil : finalMarker ≠ [] := by decide

theorem finalMarker_borderFree : borderFreeB finalMarker = true := by decide

/-- C1 counterexample: on the spec's own example input
`"Tool: foo\nFinal Answer:  42 "` — which contains the marker with leading
content — the agent loop of Nolangagent.py does NOT classify the response
as a final answer: its guard only tests whether the stripped response
STARTS with the marker, so it parses a tool call named `Tool` instead of
returning the answer `42`. -/
theorem C1_loop_counterexample :
    runParse ("Tool: foo\nFinal Answer:  42 ".data)
      = ParsedStep.ToolCall ("Tool".data) ("foo\nFinal Answer:  42".data) := by decide

/-- C1 (amended): CortexAgent.parse_response (Agent.py) classifies every
completion text containing the marker `"Final Answer:"` anywhere as a
final answer whose text is the substring after the LAST occurrence of the
marker, trimmed; the Agent.run loop (Nolangagent.py) classifies only
texts whose stripped form starts with the marker as final, and for those
it likewise extracts the substring after the last occurrence, trimmed
(such texts do contain the marker, third conjunct). -/
theorem C1_final_answer_extraction :
    (∀ s : List Char, containsSub s finalMarker = true →
        parse_response s = ParsedStep.Final (pyStrip (afterLast s finalMarker)))
    ∧ (∀ s : List Char, finalMarker.isPrefixOf (pyStrip s) = true →
        runParse s = ParsedStep.Final (pyStrip (afterLast s finalMarker)))
    ∧ (∀ s : List Char, finalMarker.isPrefixOf (pyStrip s) = true →
        containsSub s finalMarker = true) := by
  refine ⟨?_, ?_, ?_⟩
  · intro s h
    simp only [parse_response, h, if_true]
    rw [finalAnswer,
      getLastD_pySplit_eq_afterLast finalMarker finalMarker_ne_nil finalMarker_borderFree]
  · intro s h
    simp only [runParse, isFinalResponse, h, if_true]
    rw [finalAnswer,
      getLastD_pySplit_eq_afterLast finalMarker finalMarker_ne_nil finalMarker_borderFree]
  · intro s h
    exact containsSub_of_marker s finalMarker h

/-- C1 witness: concrete instances of the amended claim, with the
extracted answers evaluated. -/
theorem C1_final_answer_extraction_witness :
    parse_response ("Tool: foo\nFinal Answer:  42 ".data) = ParsedStep.Final ("42".data)
    ∧ runParse ("Final Answer:  42 ".data) = ParsedStep.Final ("42".data) :=
  ⟨(C1_final_answer_extraction.1 ("Tool: foo\nFinal Answer:  42 ".data)
      (by decide)).trans (by decide),
   (C1_final_answer_extraction.2.1 ("Final Answer:  42 ".data)
      (by decide)).trans (by decide)⟩

theorem joinWith_cons_ne (sep x : List Char) (l : List (List Char)) (h : l ≠ []) :
    joinWith sep (x :: l) = x ++ sep ++ joinWith sep l := by
  cases l with
  | nil => exact absurd rfl h
  | cons y ys => rfl

theorem pySplit_cons_single (a c : Char) (s : List Char) :
    pySplit (a :: s) [c] =
      if a = c then [] :: pySplit s [c]
      else (a :: (pySplit s [c]).headD []) :: (pySplit s [c]).tail := by
  by_cases hac : a = c
  · subst hac
    have hf : findSub (a :: s) [a] = some 0 := by
      simp [findSub, List.isPrefixOf]
    rw [pySplit_some _ _ 0 (by simp) hf]
    simp
  · have hg : [c].isPrefixOf (a :: s) = false := by
      simp only [List.isPrefixOf, Bool.and_eq_false_iff, beq_eq_false_iff_ne, ne_eq]
      left
      exact fun h => hac h.symm
    cases hf2 : findSub s [c] with
    | none =>
      have hf : findSub (a :: s) [c] = none := by
        simp [findSub, hg, hf2]
      rw [pySplit_none _ _ hf, pySplit_none _ _ hf2]
      simp [hac]
    | some j =>
      have hf : findSub (a :: s) [c] = some (j + 1) := by
        simp [findSub, hg, hf2]
      rw [pySplit_some _ _ (j + 1) (by simp) hf, pySplit_some _ _ j (by simp) hf2]
      simp only [hac, if_false, List.length_cons, List.length_nil, List.take_succ_cons,
        List.drop_succ_cons, List.headD_cons, List.tail_cons]

theorem joinWith_pySplit_single : ∀ (s : List Char) (c : Char),
    joinWith [c] (pySplit s [c]) = s := by
  intro s c
  induction s with
  | nil =>
    have hf : findSub [] [c] = none := by simp [findSub, List.isPrefixOf]
    rw [pySplit_none _ _ hf]
    rfl
  | cons a s ih =>
    rw [pySplit_cons_single]
    by_cases hac : a = c
    · subst hac
      rw [if_pos rfl, joinWith_cons_ne _ _ _ (pySplit_ne_nil s [a]), ih]
      rfl
    · rw [if_neg hac]
      cases htl : pySplit s [c] with
      | nil => exact absurd htl (pySplit_ne_nil s [c])
      | cons hd0 tl0 =>
        rw [htl] at ih
        cases tl0 with
        | nil =>
          simp only [List.headD_cons, List.tail_cons, joinWith]
          simp only [joinWith] at ih
          rw [ih]
        | cons x xs =>
          simp only [List.headD_cons, List.tail_cons] at *
          rw [joinWith_cons_ne _ _ _ (by simp)] at ih ⊢
          rw [← ih]
          simp

theorem headD_pySplit_single : ∀ (s : List Char) (c : Char),
    (pySplit s [c]).headD [] = s.takeWhile (fun x => x != c) := by
  intro s c
  induction s with
  | nil =>
    have hf : findSub [] [c] = none := by simp [findSub, List.isPrefixOf]
    rw [pySplit_none _ _ hf]
    rfl
  | cons a s ih =>
    rw [pySplit_cons_single, List.takeWhile_cons]
    by_cases hac : a = c
    · subst hac
      simp
    · simp only [if_neg hac, List.headD_cons, ih]
      have : (a != c) = true := by simp [hac]
      rw [this]
      simp

theorem tailJoin_pySplit_single : ∀ (s : List Char) (c : Char),
    joinWith [c] ((pySplit s [c]).tail) = (s.dropWhile (fun x => x != c)).drop 1 := by
  intro s c
  induction s with
  | nil =>
    have hf : findSub [] [c] = none := by simp [findSub, List.isPrefixOf]
    rw [pySplit_none _ _ hf]
    rfl
  | cons a s ih =>
    rw [pySplit_cons_single, List.dropWhile_cons]
    by_cases hac : a = c
    · subst hac
      simp only [if_pos rfl, List.tail_cons, bne_self_eq_false, Bool.false_eq_true,
        if_false, List.drop_succ_cons, List.drop_zero]
      exact joinWith_pySplit_single s a
    · have hbne : (a != c) = true := by simp [hac]
      simp only [if_neg hac, List.tail_cons, hbne, if_true]
      exact ih

/-- C2: whenever a completion is not classified as final — by
parse_response's contains-test (first conjunct) or by the loop's
starts-with test (second conjunct) — both implementations return a tool
call whose name is the substring before the first `:` trimmed and whose
argument is everything after the first `:` (rejoined) trimmed; when the
text has no colon at all, the name is the whole trimmed text and the
argument is empty (third conjunct).  The parse is a total function, so it
never raises. -/
theorem C2_tool_call_parse :
    (∀ s : List Char, containsSub s finalMarker = false →
        parse_response s = ParsedStep.ToolCall (specToolName s) (specToolArg s))
    ∧ (∀ s : List Char, finalMarker.isPrefixOf (pyStrip s) = false →
        runParse s = ParsedStep.ToolCall (specToolName s) (specToolArg s))
    ∧ (∀ s : List Char, (∀ a ∈ s, a ≠ ':') →
        specToolName s = pyStrip s ∧ specToolArg s = []) := by
  have hname : ∀ s : List Char, toolNameOf s = specToolName s := by
    intro s
    rw [toolNameOf, specToolName, headD_pySplit_single]
  have harg : ∀ s : List Char, toolInputOf s = specToolArg s := by
    intro s
    rw [toolInputOf, specToolArg, tailJoin_pySplit_single]
  refine ⟨?_, ?_, ?_⟩
  · intro s h
    simp only [parse_response, h, Bool.false_eq_true, if_false, hname, harg]
  · intro s h
    simp only [runParse, isFinalResponse, h, Bool.false_eq_true, if_false, hname, harg]
  · intro s h
    have hall : ∀ a ∈ s, (a != ':') = true := by
      intro a ha
      simp [h a ha]
    constructor
    · rw [specToolName, List.takeWhile_eq_self_iff.mpr hall]
    · rw [specToolArg, List.dropWhile_eq_nil_iff.mpr hall]
      rfl

/-- C2 witness: concrete instances, including the spec's two examples. -/
theorem C2_tool_call_parse_witness :
    parse_response ("query_executor: SELECT 1".data)
      = ParsedStep.ToolCall ("query_executor".data) ("SELECT 1".data)
    ∧ runParse ("weird input no colon".data)
      = ParsedStep.ToolCall ("weird input no colon".data) []
    ∧ (specToolName ("weird input no colon".data) = pyStrip ("weird input no colon".data)
        ∧ specToolArg ("weird input no colon".data) = []) :=
  ⟨(C2_tool_call_parse.1 ("query_executor: SELECT 1".data) (by decide)).trans (by decide),
   (C2_tool_call_parse.2.1 ("weird input no colon".data) (by decide)).trans (by decide),
   C2_tool_call_parse.2.2 ("weird input no colon".data) (by decide)⟩

theorem runStep_user_append (tools : List Tool) (complete : List Message → List Char)
    (messages msgs2 : List Message)
    (h : runStep tools complete messages = Sum.inl msgs2) :
    ∃ c, msgs2 = messages ++ [⟨("user".data), c⟩] := by
  cases hp : runParse (complete messages) with
  | Final ans => simp [runStep, hp] at h
  | ToolCall name arg =>
    cases hfind : tools.find? (fun t => t.name == name) with
    | some tool =>
      simp only [runStep, hp, hfind, Sum.inl.injEq] at h
      exact ⟨toolReturn name (tool.func arg), h.symm⟩
    | none =>
      simp only [runStep, hp, hfind, Sum.inl.injEq] at h
      exact ⟨errNotFound name, h.symm⟩

theorem runLoop_inr (tools : List Tool) (complete : List Message → List Char)
    (n : Nat) (ans : List Char) :
    runLoop tools complete n (Sum.inr ans) = Sum.inr ans := by
  cases n with
  | zero => rfl
  | succ n2 => rfl

theorem runLoop_user_appended (tools : List Tool) (complete : List Message → List Char) :
    ∀ (n : Nat) (msgs0 msgs : List Message),
      runLoop tools complete n (Sum.inl msgs0) = Sum.inl msgs →
      ∃ rest, msgs = msgs0 ++ rest ∧ ∀ m ∈ rest, m.role = ("user".data) := by
  intro n
  induction n with
  | zero =>
    intro msgs0 msgs h
    simp only [runLoop, Sum.inl.injEq] at h
    exact ⟨[], by simp [← h]⟩
  | succ n ih =>
    intro msgs0 msgs h
    have hunf : runLoop tools complete (n + 1) (Sum.inl msgs0)
        = runLoop tools complete n (runStep tools complete msgs0) := rfl
    rw [hunf] at h
    cases hst : runStep tools complete msgs0 with
    | inr ans =>
      rw [hst, runLoop_inr] at h
      exact absurd h (by simp)
    | inl msgs1 =>
      rw [hst] at h
      obtain ⟨c, hc⟩ := runStep_user_append tools complete msgs0 msgs1 hst
      obtain ⟨rest, hrest, hroles⟩ := ih msgs1 msgs h
      refine ⟨[⟨("user".data), c⟩] ++ rest, ?_, ?_⟩
      · rw [hrest, hc, List.append_assoc]
      · intro m hm
        rcases List.mem_append.mp hm with hm1 | hm2
        · simp at hm1
          rw [hm1]
        · exact hroles m hm2

/-- C3: dispatch on a parsed tool call whose name is not in the registry
never throws: the loop appends exactly one message, with content
`"Error: Tool <name> not found."`, and hands the grown transcript to the
next model call (`Sum.inl`, the AWAITING_MODEL state). -/
theorem C3_unknown_tool_dispatch (tools : List Tool) (complete : List Message → List Char)
    (messages : List Message) (name arg : List Char)
    (hp : runParse (complete messages) = ParsedStep.ToolCall name arg)
    (hfind : tools.find? (fun t => t.name == name) = none) :
    runStep tools complete messages
      = Sum.inl (messages ++ [⟨("user".data), errNotFound name⟩]) := by
  simp only [runStep, hp, hfind]

/-- C3 witness: a completion naming an unregistered tool against the
agent's actual three-tool registry. -/
theorem C3_unknown_tool_dispatch_witness :
    runStep (agentTools (fun _ => []) (fun _ => []) (fun _ => []))
        (fun _ => ("bogus_tool: run".data)) (runInit ("sys".data) ("hi".data))
      = Sum.inl (runInit ("sys".data) ("hi".data)
          ++ [⟨("user".data), errNotFound ("bogus_tool".data)⟩]) :=
  C3_unknown_tool_dispatch (agentTools (fun _ => []) (fun _ => []) (fun _ => []))
    (fun _ => ("bogus_tool: run".data)) (runInit ("sys".data) ("hi".data))
    ("bogus_tool".data) ("run".data) (by decide) (by rfl)

/-- C5: the transcript of one Agent.run invocation is append-only — each
loop iteration either appends exactly one message at the end (leaving all
existing messages unchanged) or terminates with a final answer — and on
every reachable transcript the first message is still the fixed system
instructions passed at initialisation. -/
theorem C5_transcript_invariant :
    (∀ (tools : List Tool) (complete : List Message → List Char) (messages : List Message),
        (∃ c, runStep tools complete messages
            = Sum.inl (messages ++ [⟨("user".data), c⟩]))
        ∨ (∃ ans, runStep tools complete messages = Sum.inr ans))
    ∧ (∀ (tools : List Tool) (complete : List Message → List Char)
        (system_message input_string : List Char) (n : Nat) (msgs : List Message),
        runLoop tools complete n (Sum.inl (runInit system_message input_string))
          = Sum.inl msgs →
        msgs.head? = some ⟨("system".data), system_message⟩) := by
  constructor
  · intro tools complete messages
    cases hst : runStep tools complete messages with
    | inl msgs1 =>
      obtain ⟨c, hc⟩ := runStep_user_append tools complete messages msgs1 hst
      exact Or.inl ⟨c, by rw [hc]⟩
    | inr ans => exact Or.inr ⟨ans, rfl⟩
  · intro tools complete system_message input_string n msgs h
    obtain ⟨rest, hrest, _⟩ :=
      runLoop_user_appended tools complete n (runInit system_message input_string) msgs h
    rw [hrest]
    rfl

/-- C5 witness: two loop iterations against an unknown tool name leave
the system message at the head. -/
theorem C5_transcript_invariant_witness :
    ((runInit ("sys text".data) ("user text".data)
        ++ [(⟨("user".data), errNotFound ("bogus".data)⟩ : Message)])
        ++ [(⟨("user".data), errNotFound ("bogus".data)⟩ : Message)]).head?
      = some ⟨("system".data), ("sys text".data)⟩ :=
  C5_transcript_invariant.2 [] (fun _ => ("bogus: x".data))
    ("sys text".data) ("user text".data) 2
    ((runInit ("sys text".data) ("user text".data)
        ++ [(⟨("user".data), errNotFound ("bogus".data)⟩ : Message)])
        ++ [(⟨("user".data), errNotFound ("bogus".data)⟩ : Message)])
    (by decide)

/-- C8: the loop has no built-in iteration bound.  A model response
recognised as final makes the very next step return the extracted answer
(first conjunct); a response not recognised as final always continues
(second conjunct); and under a completion function whose responses are
never recognised as final, after any number of iterations the loop is
still running (third conjunct) — it never terminates. -/
theorem C8_no_iteration_bound :
    (∀ (tools : List Tool) (complete : List Message → List Char) (messages : List Message),
        isFinalResponse (complete messages) = true →
        runStep tools complete messages = Sum.inr (finalAnswer (complete messages)))
    ∧ (∀ (tools : List Tool) (complete : List Message → List Char) (messages : List Message),
        isFinalResponse (complete messages) = false →
        ∃ msgs2, runStep tools complete messages = Sum.inl msgs2)
    ∧ (∀ (tools : List Tool) (complete : List Message → List Char),
        (∀ ms : List Message, isFinalResponse (complete ms) = false) →
        ∀ (n : Nat) (msgs0 : List Message),
        ∃ msgs, runLoop tools complete n (Sum.inl msgs0) = Sum.inl msgs) := by
  have hstep : ∀ (tools : List Tool) (complete : List Message → List Char)
      (messages : List Message),
      isFinalResponse (complete messages) = false →
      ∃ msgs2, runStep tools complete messages = Sum.inl msgs2 := by
    intro tools complete messages h
    cases hfind : tools.find? (fun t => t.name == toolNameOf (complete messages)) with
    | some tool =>
      exact ⟨messages ++ [⟨("user".data),
          toolReturn (toolNameOf (complete messages))
            (tool.func (toolInputOf (complete messages)))⟩],
        by simp [runStep, runParse, h, hfind]⟩
    | none =>
      exact ⟨messages ++ [⟨("user".data), errNotFound (toolNameOf (complete messages))⟩],
        by simp [runStep, runParse, h, hfind]⟩
  refine ⟨?_, hstep, ?_⟩
  · intro tools complete messages h
    simp [runStep, runParse, h]
  · intro tools complete hall n
    induction n with
    | zero => intro msgs0; exact ⟨msgs0, rfl⟩
    | succ n ih =>
      intro msgs0
      obtain ⟨m1, hm1⟩ := hstep tools complete msgs0 (hall msgs0)
      have hunf : runLoop tools complete (n + 1) (Sum.inl msgs0)
          = runLoop tools complete n (runStep tools complete msgs0) := rfl
      obtain ⟨msgs, hmsgs⟩ := ih m1
      exact ⟨msgs, by rw [hunf, hm1, hmsgs]⟩

/-- C8 witness: a final-marked response terminates at once with the
trimmed answer; a tool-shaped response keeps the loop running after three
iterations. -/
theorem C8_no_iteration_bound_witness :
    runStep [] (fun _ => ("Final Answer: done".data)) [] = Sum.inr ("done".data)
    ∧ (∃ msgs2, runStep [] (fun _ => ("tool_x: go".data)) [] = Sum.inl msgs2)
    ∧ (∃ msgs, runLoop [] (fun _ => ("tool_x: go".data)) 3 (Sum.inl []) = Sum.inl msgs) :=
  ⟨(C8_no_iteration_bound.1 [] (fun _ => ("Final Answer: done".data)) []
      (by decide)).trans (by decide),
   C8_no_iteration_bound.2.1 [] (fun _ => ("tool_x: go".data)) [] (by decide),
   C8_no_iteration_bound.2.2 [] (fun _ => ("tool_x: go".data))
     (fun ms => (by decide : isFinalResponse ("tool_x: go".data) = false)) 3 []⟩

/-- C10: every message the loop appends after the initial system and user
pair carries role `user` — both tool results and tool-not-found errors —
so a reachable transcript consists of the initial pair followed by
user-role messages only, and every role in it is `system` or `user`;
no `assistant` or dedicated tool-result role ever appears. -/
theorem C10_message_roles (tools : List Tool) (complete : List Message → List Char)
    (system_message input_string : List Char) (n : Nat) (msgs : List Message)
    (h : runLoop tools complete n (Sum.inl (runInit system_message input_string))
        = Sum.inl msgs) :
    ∃ rest, msgs = runInit system_message input_string ++ rest
      ∧ (∀ m ∈ rest, m.role = ("user".data))
      ∧ (∀ m ∈ msgs, m.role = ("system".data) ∨ m.role = ("user".data)) := by
  obtain ⟨rest, hrest, hroles⟩ :=
    runLoop_user_appended tools complete n (runInit system_message input_string) msgs h
  refine ⟨rest, hrest, hroles, ?_⟩
  intro m hm
  rw [hrest] at hm
  rcases List.mem_append.mp hm with hm1 | hm2
  · simp only [runInit, List.mem_cons, List.mem_singleton] at hm1
    rcases hm1 with h1 | h2 | h3
    · left; rw [h1]
    · right; rw [h2]
    · exact absurd h3 (by simp)
  · right; exact hroles m hm2

/-- C10 witness: one loop iteration appends a user-role message after the
initial system and user pair. -/
theorem C10_message_roles_witness :
    ∃ rest, runInit ("s10".data) ("u10".data)
        ++ [(⟨("user".data), errNotFound ("nope".data)⟩ : Message)]
      = runInit ("s10".data) ("u10".data) ++ rest
      ∧ (∀ m ∈ rest, m.role = ("user".data))
      ∧ (∀ m ∈ runInit ("s10".data) ("u10".data)
            ++ [(⟨("user".data), errNotFound ("nope".data)⟩ : Message)],
          m.role = ("system".data) ∨ m.role = ("user".data)) :=
  C10_message_roles [] (fun _ => ("nope: x".data)) ("s10".data) ("u10".data) 1
    (runInit ("s10".data) ("u10".data) ++ [(⟨("user".data), errNotFound ("nope".data)⟩ : Message)])
    (by decide)

/-- C4: for every SQL text and every warehouse behaviour, the query
executor is a total function (no exception crosses the tool boundary): it
returns the fetched rows together with the warehouse execution identifier
when the client call succeeds, and a result carrying the error message as
data when the client call raises. -/
theorem C4_query_executor_no_raise :
    ∀ (beh : List Char → ExecBehavior) (query : List Char) (n : Nat),
      (∃ results qid, beh query = ExecBehavior.ok results qid
          ∧ (query_executor beh query n).1 = ExecResult.success results qid)
      ∨ (∃ e, beh query = ExecBehavior.raise e
          ∧ (query_executor beh query n).1 = ExecResult.failure e) := by
  intro beh query n
  cases hb : beh query with
  | ok r q => exact Or.inl ⟨r, q, rfl, by simp [query_executor, hb]⟩
  | raise e => exact Or.inr ⟨e, rfl, by simp [query_executor, hb]⟩

theorem tableInfoGo_ok (f g : List Char → List Char) :
    ∀ (ts : List (List Char)) (acc : List Char) (n : Nat),
      tableInfoGo (fun q => ExecBehavior.ok (f q) (g q)) ts acc n
        = (Except.ok (acc ++ concatAll (ts.map (fun t => schemaBlock t (f (descQuery t))))), n) := by
  intro ts
  induction ts with
  | nil => intro acc n; simp [tableInfoGo, concatAll]
  | cons t ts ih =>
    intro acc n
    simp only [tableInfoGo, List.map_cons, concatAll]
    rw [ih]
    simp [List.append_assoc]

theorem tableInfoGo_raise (beh : List Char → ExecBehavior) (e : List Char) :
    ∀ (pre : List (List Char)) (t : List Char) (post : List (List Char)),
      (∀ u ∈ pre, ∃ r q, beh (descQuery u) = ExecBehavior.ok r q) →
      beh (descQuery t) = ExecBehavior.raise e →
      ∀ (acc : List Char) (n : Nat),
        (tableInfoGo beh (pre ++ t :: post) acc n).1 = Except.error e := by
  intro pre
  induction pre with
  | nil =>
    intro t post hpre hraise acc n
    simp [tableInfoGo, hraise]
  | cons u pre ih =>
    intro t post hpre hraise acc n
    obtain ⟨r, q, hu⟩ := hpre u (by simp)
    simp only [List.cons_append, tableInfoGo, hu]
    exact ih t post (fun v hv => hpre v (by simp [hv])) hraise _ n

/-- C6: on an all-successful warehouse behaviour the schema tool returns
the concatenation, in input order, of one block
`"Schema for table <name>: <raw-result>\n"` per listed name (first
conjunct); and when the describe lookup of some listed table raises —
all the tables before it succeeding — the exception propagates out of the
whole call, with no per-table catch (second conjunct). -/
theorem C6_schema_info :
    (∀ (f g : List Char → List Char) (table_names : List Char) (n : Nat),
        snowflake_table_info (fun q => ExecBehavior.ok (f q) (g q)) table_names n
          = (Except.ok (specSchemaConcat f table_names), n))
    ∧ (∀ (beh : List Char → ExecBehavior) (table_names : List Char) (n : Nat)
        (e : List Char) (pre : List (List Char)) (t : List Char) (post : List (List Char)),
        pySplit table_names [','] = pre ++ t :: post →
        (∀ u ∈ pre, ∃ r q, beh (descQuery u) = ExecBehavior.ok r q) →
        beh (descQuery t) = ExecBehavior.raise e →
        (snowflake_table_info beh table_names n).1 = Except.error e) := by
  constructor
  · intro f g table_names n
    unfold snowflake_table_info specSchemaConcat
    rw [tableInfoGo_ok]
    simp
  · intro beh table_names n e pre t post hsplit hpre hraise
    unfold snowflake_table_info
    rw [hsplit]
    exact tableInfoGo_raise beh e pre t post hpre hraise [] n

/-- C6 witness: concrete two-table runs — success concatenates the two
blocks in order, and a failure on the second table propagates. -/
theorem C6_schema_info_witness :
    snowflake_table_info (fun _ => ExecBehavior.ok ("R".data) ("Q".data)) ("a,b".data) 0
      = (Except.ok (("Schema for table a: R\n".data) ++ ("Schema for table b: R\n".data)), 0)
    ∧ (snowflake_table_info
        (fun q => if q = descQuery ("b".data)
          then ExecBehavior.raise ("boom".data)
          else ExecBehavior.ok ("R".data) ("Q".data)) ("a,b".data) 0).1
      = Except.error ("boom".data) :=
  ⟨(C6_schema_info.1 (fun _ => ("R".data)) (fun _ => ("Q".data)) ("a,b".data) 0).trans
     (by rfl),
   C6_schema_info.2
     (fun q => if q = descQuery ("b".data)
       then ExecBehavior.raise ("boom".data)
       else ExecBehavior.ok ("R".data) ("Q".data))
     ("a,b".data) 0 ("boom".data) [("a".data)] ("b".data) [] (by decide)
     (fun u hu => ⟨("R".data), ("Q".data), by
        simp only [List.mem_singleton] at hu
        subst hu
        decide⟩)
     (by decide)⟩

/-- C7: for every query, the query checker calls the completion endpoint
with a single-message request: exactly one message, of role `user` (so no
system message), whose content is the fixed critique template with the
quote-escaped query substituted into its hole; the request is built from
the query alone, independently of the outer loop's transcript (the
function does not even receive the transcript). -/
theorem C7_query_checker_request :
    ∀ (cortex_function : List Message → List Char) (query : List Char),
      ∃ msgs : List Message,
        query_checker cortex_function query = cortex_function msgs
        ∧ msgs = [⟨("user".data), templatePre ++ pyEscape query ++ templatePost⟩]
        ∧ msgs.length = 1
        ∧ ∀ m ∈ msgs, m.role = ("user".data) ∧ m.role ≠ ("system".data) := by
  intro cortex_function query
  refine ⟨[⟨("user".data), templatePre ++ pyEscape query ++ templatePost⟩],
    rfl, rfl, rfl, ?_⟩
  intro m hm
  simp only [List.mem_singleton] at hm
  subst hm
  exact ⟨rfl, (by decide : ("user".data) ≠ ("system".data))⟩

/-- C9 (code bug): the cursor acquired by the query executor is NOT
released on the exception exit path: when `execute` raises, the
`cursor.close()` inside the `try` block is skipped and the `except`
branch returns with the cursor still open — the open-cursor count rises
from 0 to 1.  The schema tool leaks its per-table cursor the same way on
a raising describe. -/
theorem C9_cursor_not_released :
    query_executor (fun _ => ExecBehavior.raise ("boom".data)) ("SELECT 1".data) 0
      = (ExecResult.failure ("boom".data), 1)
    ∧ snowflake_table_info (fun _ => ExecBehavior.raise ("boom".data)) ("t1".data) 0
      = (Except.error ("boom".data), 1) :=
  ⟨rfl, rfl⟩

/-- C4 witness: the disjunction instantiated at a concrete raising
behaviour. -/
theorem C4_query_executor_no_raise_witness :
    (∃ results qid,
        (fun _ : List Char => ExecBehavior.raise ("bad sql".data)) ("SELECT *".data)
          = ExecBehavior.ok results qid
        ∧ (query_executor (fun _ => ExecBehavior.raise ("bad sql".data))
              ("SELECT *".data) 0).1 = ExecResult.success results qid)
    ∨ (∃ e,
        (fun _ : List Char => ExecBehavior.raise ("bad sql".data)) ("SELECT *".data)
          = ExecBehavior.raise e
        ∧ (query_executor (fun _ => ExecBehavior.raise ("bad sql".data))
              ("SELECT *".data) 0).1 = ExecResult.failure e) :=
  C4_query_executor_no_raise (fun _ => ExecBehavior.raise ("bad sql".data))
    ("SELECT *".data) 0

/-- C7 witness: the request shape at a concrete endpoint and query. -/
theorem C7_query_checker_request_witness :
    ∃ msgs : List Message,
      query_checker (fun _ => ("ok".data)) ("SELECT 1".data)
        = (fun _ : List Message => ("ok".data)) msgs
      ∧ msgs = [⟨("user".data),
          templatePre ++ pyEscape ("SELECT 1".data) ++ templatePost⟩]
      ∧ msgs.length = 1
      ∧ ∀ m ∈ msgs, m.role = ("user".data) ∧ m.role ≠ ("system".data) :=
  C7_query_checker_request (fun _ => ("ok".data)) ("SELECT 1".data)

end Snowwise
